import Mathlib

/-!
Verification of the AiCoder repository's core: the dependency graph
(`dependency_graph.py`), the incremental indexing pipeline
(`project_indexer.py`, `ast_parser.py`, `embedding_generator.py`) and the
hybrid retrieval engine (`vector_db.py`), shallowly embedded in Lean.
External collaborators (the chroma vector store, the sentence-transformer
encoder, the rank_bm25 scorer, tree-sitter chunkers, the md5 digest) are
abstracted as function parameters; every in-repository control path is
translated from the Python source.
-/

namespace AiCoder

/-- Inner loop of `pySplit`: walk the characters, accumulating the current
token (reversed); whitespace ends a token, empty tokens are dropped. -/
def pySplitGo : List Char → List Char → List String
  | [], acc => if acc.isEmpty then [] else [String.mk acc.reverse]
  | c :: cs, acc =>
    if c.isWhitespace then
      if acc.isEmpty then pySplitGo cs []
      else String.mk acc.reverse :: pySplitGo cs []
    else pySplitGo cs (c :: acc)

/-- Python `str.split()`: split on runs of whitespace, dropping empty pieces. -/
def pySplit (s : String) : List String :=
  pySplitGo s.data []

/-- A chunk dict as produced by `ast_parser.py` and enriched by
`embedding_generator.py`: the optional fields model keys that may be absent. -/
structure Chunk where
  type : String
  content : String
  file_path : String
  framework : Option String := none
  embedding : Option (List Rat) := none
  chunk_id : Option String := none
deriving Repr, DecidableEq, Inhabited

/-- The metadata dict built in `AndroidVectorDB.store_chunks`. -/
structure Metadata where
  file_path : String
  type : String
  chunk_id : String
  framework : Option String := none
deriving Repr, DecidableEq, Inhabited

/-- One entry of the chroma collection: (id, embedding, document, metadata). -/
structure VectorEntry where
  id : String
  embedding : List Rat
  document : String
  metadata : Metadata
deriving Repr, DecidableEq, Inhabited

/-- A scored search result dict as assembled in `_bm25_search` and
`_combine_results`. -/
structure ScoredResult where
  id : String
  document : String
  metadata : Metadata
  score : Rat
deriving Repr, DecidableEq, Inhabited

/-- The reply of `collection.query` in `hybrid_search`: chroma returns one
inner list per query text (here always a single query). -/
structure VectorQueryReply where
  ids : List (List String)
  documents : List (List String)
  metadatas : List (List Metadata)
  distances : List (List Rat)
deriving Repr, Inhabited

/-- The mutable state of `AndroidVectorDB`: the chroma collection, the BM25
index (`none` until the first `store_chunks`, then the tokenized corpus the
`BM25Okapi` object was built from) and the parallel document/metadata arrays. -/
structure VectorDB where
  collection : List VectorEntry
  bm25_index : Option (List (List String))
  chunk_documents : List String
  chunk_metadatas : List Metadata
deriving Repr, Inhabited

/-- The metadata `store_chunks` records for a chunk. -/
def chunkMetadata (c : Chunk) : Metadata :=
  { file_path := c.file_path, type := c.type, chunk_id := c.chunk_id.getD "",
    framework := c.framework }

/-- Documents extracted by `store_chunks` from a batch: the contents of the
chunks that carry an embedding (chunks without one are skipped by `continue`). -/
def storedDocuments (chunks : List Chunk) : List String :=
  (chunks.filter (fun c => c.embedding.isSome)).map (fun c => c.content)

/-- Metadatas extracted by `store_chunks` from a batch. -/
def storedMetadatas (chunks : List Chunk) : List Metadata :=
  (chunks.filter (fun c => c.embedding.isSome)).map chunkMetadata

/-- Collection entries extracted by `store_chunks` from a batch. -/
def storedEntries (chunks : List Chunk) : List VectorEntry :=
  (chunks.filter (fun c => c.embedding.isSome)).map (fun c =>
    { id := c.chunk_id.getD "", embedding := c.embedding.getD [],
      document := c.content, metadata := chunkMetadata c })

/-- Chroma `collection.add`: an entry whose id already exists in the
collection is skipped (chroma warns about an insert of an existing embedding
id and keeps the stored entry; it does not overwrite and does not duplicate). -/
def collectionAdd : List VectorEntry → List VectorEntry → List VectorEntry
  | coll, [] => coll
  | coll, e :: es =>
    collectionAdd (if coll.any (fun x => x.id = e.id) then coll else coll ++ [e]) es

/-- `AndroidVectorDB.store_chunks`: add the embedded chunks to the chroma
collection, extend the parallel document/metadata arrays, and rebuild the BM25
index from the whole corpus, each document tokenized by `doc.split()`. -/
def store_chunks (db : VectorDB) (chunks : List Chunk) : VectorDB :=
  let documents := storedDocuments chunks
  let docs := db.chunk_documents ++ documents
  { collection :=
      if documents.isEmpty then db.collection
      else collectionAdd db.collection (storedEntries chunks)
    bm25_index := some (docs.map pySplit)
    chunk_documents := docs
    chunk_metadatas := db.chunk_metadatas ++ storedMetadatas chunks }

/-- The order `np.argsort` sorts the index range by: ascending score, equal
scores kept in index order (a stable sort's output is exactly the sort by
this lexicographic order, and for a total antisymmetric order the sorted
permutation is unique, so any correct stable ascending argsort yields it). -/
def argLe (s : List Rat) (i j : Nat) : Prop :=
  s.getD i 0 < s.getD j 0 ∨ (s.getD i 0 = s.getD j 0 ∧ i ≤ j)

instance (s : List Rat) : DecidableRel (argLe s) := fun i j =>
  inferInstanceAs (Decidable (s.getD i 0 < s.getD j 0 ∨ (s.getD i 0 = s.getD j 0 ∧ i ≤ j)))

/-- `np.argsort` on the score array, ascending and stable. -/
def argsortAsc (s : List Rat) : List Nat :=
  List.insertionSort (argLe s) (List.range s.length)

/-- The result dict `_bm25_search` assembles for corpus index `idx`. -/
def mkBM25Result (db : VectorDB) (scores : List Rat) (idx : Nat) : ScoredResult :=
  { id := toString idx
    document := db.chunk_documents.getD idx ""
    metadata := db.chunk_metadatas.getD idx default
    score := scores.getD idx 0 }

/-- `AndroidVectorDB._bm25_search`, with the rank_bm25 scorer abstracted as
`getScores` (tokenized corpus → tokenized query → one score per document).
Returns `[]` when no BM25 index has been built yet; otherwise takes the top
`n_results` indices of `np.argsort(scores)[::-1]`, guards each index against
the metadata array length, and assembles the result dicts. -/
def bm25_search (getScores : List (List String) → List String → List Rat)
    (db : VectorDB) (query : String) (n_results : Nat) : List ScoredResult :=
  match db.bm25_index with
  | none => []
  | some corpus =>
    let scores := getScores corpus (pySplit query)
    let top_indices := ((argsortAsc scores).reverse.take n_results).filter
      (fun idx => idx < db.chunk_metadatas.length)
    top_indices.map (mkBM25Result db scores)

/-- The vector-result dicts `_combine_results` builds from the chroma reply:
score is `1 - distance`. Nothing is built when `ids` is empty. -/
def vecItems (vr : VectorQueryReply) : List ScoredResult :=
  if vr.ids.isEmpty then []
  else
    (List.range (vr.ids.getD 0 []).length).map (fun i =>
      { id := (vr.ids.getD 0 []).getD i ""
        document := (vr.documents.getD 0 []).getD i ""
        metadata := (vr.metadatas.getD 0 []).getD i default
        score := 1 - (vr.distances.getD 0 []).getD i 0 })

/-- The BM25-result dicts after normalization: `min(1.0, score / 10)`. -/
def bmItems (bm : List ScoredResult) : List ScoredResult :=
  bm.map (fun r => { r with score := min 1 (r.score / 10) })

/-- The dedup loop of `_combine_results`: walk the combined list with a `seen`
set of id strings, keeping an item only when its id has not been seen. -/
def dedupById : List ScoredResult → List String → List ScoredResult
  | [], _ => []
  | x :: xs, seen =>
    if x.id ∈ seen then dedupById xs seen
    else x :: dedupById xs (x.id :: seen)

/-- The fused, deduplicated list of `_combine_results` before sorting:
vector results first, then normalized BM25 results, deduplicated by id. -/
def fusedDedup (vr : VectorQueryReply) (bm : List ScoredResult) :
    List ScoredResult :=
  dedupById (vecItems vr ++ bmItems bm) []

/-- The descending-score order of `sorted(deduped, key=score, reverse=True)`.
Python's sort is stable, and a stable sort's output is the insertion sort
under this relation (equal scores keep their relative order). -/
def scoreGe (a b : ScoredResult) : Prop := b.score ≤ a.score

instance : DecidableRel scoreGe := fun a b =>
  inferInstanceAs (Decidable (b.score ≤ a.score))

/-- `AndroidVectorDB._combine_results`: concatenate, deduplicate by id, sort
by score descending (Python's stable `sorted` with `reverse=True`), truncate. -/
def combine_results (vr : VectorQueryReply) (bm : List ScoredResult)
    (n_results : Nat) : List ScoredResult :=
  (List.insertionSort scoreGe (fusedDedup vr bm)).take n_results

/-- `AndroidVectorDB.hybrid_search`. The chroma query is an external call that
may raise; its outcome is passed as an `Except`. The method body has no
exception handling, so an error outcome propagates to the caller unchanged. -/
def hybrid_search (getScores : List (List String) → List String → List Rat)
    (db : VectorDB) (vectorQuery : Except String VectorQueryReply)
    (query : String) (n_results : Nat) : Except String (List ScoredResult) := do
  let vr ← vectorQuery
  let bm := bm25_search getScores db query n_results
  pure (combine_results vr bm n_results)

/-- `AndroidEmbeddingGenerator.generate_embeddings`, inner loop: attach to the
chunk at position `i` its embedding `embs[i]` and the id
`md5(file_path + "-" + type)`, the digest abstracted as `digest`. -/
def generate_embeddings_go (digest : String → String) (embs : List (List Rat)) :
    Nat → List Chunk → List Chunk
  | _, [] => []
  | i, c :: cs =>
    { c with embedding := some (embs.getD i []),
             chunk_id := some (digest (c.file_path ++ "-" ++ c.type)) }
      :: generate_embeddings_go digest embs (i + 1) cs

/-- `AndroidEmbeddingGenerator.generate_embeddings`: encode every chunk's
content (the sentence-transformer encoder abstracted as `enc`, one vector per
input text), then attach embeddings and chunk ids. -/
def generate_embeddings (digest : String → String)
    (enc : List String → List (List Rat)) (chunks : List Chunk) : List Chunk :=
  generate_embeddings_go digest (enc (chunks.map (fun c => c.content))) 0 chunks

/-- The file system at one instant: a path maps to the file's readable content,
or to `none` when the file is missing or unreadable. -/
def FileSys := String → Option String

/-- The state of `DependencyGraph`: the nodes and typed edges of the
`networkx.DiGraph` (an edge is (source, target, type attribute); a `DiGraph`
holds at most one edge per ordered pair), and the `file_hashes` dict as an
association list in insertion order. -/
structure DependencyGraph where
  nodes : List String
  edges : List (String × String × String)
  file_hashes : List (String × String)
deriving Repr, DecidableEq, Inhabited

/-- `DependencyGraph._calculate_file_hash`: the digest of the file's raw
bytes; any read error yields the empty string. The md5 digest is abstracted
as `digest`. -/
def calculate_file_hash (digest : String → String) (fs : FileSys)
    (file_path : String) : String :=
  match fs file_path with
  | some content => digest content
  | none => ""

/-- Lookup in the `file_hashes` dict. -/
def lookupHash (g : DependencyGraph) (file_path : String) : Option String :=
  (g.file_hashes.find? (fun kv => kv.1 = file_path)).map (fun kv => kv.2)

/-- Assignment into an association list: replace the recorded value, or
append a new entry when the key is absent (dict insertion order). -/
def setHashList (l : List (String × String)) (file_path v : String) :
    List (String × String) :=
  if l.any (fun kv => kv.1 = file_path) then
    l.map (fun kv => if kv.1 = file_path then (file_path, v) else kv)
  else l ++ [(file_path, v)]

/-- Assignment `file_hashes[file_path] = v`. -/
def setHash (g : DependencyGraph) (file_path v : String) : DependencyGraph :=
  { g with file_hashes := setHashList g.file_hashes file_path v }

/-- `DependencyGraph.add_file`: when the path is not yet a node, add the node
and record the file's current fingerprint; otherwise do nothing. -/
def add_file (digest : String → String) (fs : FileSys) (g : DependencyGraph)
    (file_path : String) : DependencyGraph :=
  if file_path ∈ g.nodes then g
  else setHash { g with nodes := g.nodes ++ [file_path] } file_path
    (calculate_file_hash digest fs file_path)

/-- `networkx.DiGraph.has_edge(source, target)`: edge existence between the
ordered pair, ignoring the edge's type attribute. -/
def has_edge (g : DependencyGraph) (source target : String) : Bool :=
  g.edges.any (fun e => e.1 = source ∧ e.2.1 = target)

/-- The first two statements of `add_dependency`: `add_file` on the source,
then on the target. -/
def ensure_nodes (digest : String → String) (fs : FileSys)
    (g : DependencyGraph) (source target : String) : DependencyGraph :=
  add_file digest fs (add_file digest fs g source) target

/-- `DependencyGraph.add_dependency`: ensure both endpoints are files of the
graph, then add the typed edge unless the `DiGraph` already holds an edge (of
any type) between the pair. -/
def add_dependency (digest : String → String) (fs : FileSys)
    (g : DependencyGraph) (source target rel_type : String) : DependencyGraph :=
  if has_edge (ensure_nodes digest fs g source target) source target then
    ensure_nodes digest fs g source target
  else
    { ensure_nodes digest fs g source target with
        edges := (ensure_nodes digest fs g source target).edges
          ++ [(source, target, rel_type)] }

/-- `DependencyGraph.has_changed`: `True` when no fingerprint is recorded for
the path, or when the freshly computed fingerprint differs from the record. -/
def has_changed (digest : String → String) (fs : FileSys) (g : DependencyGraph)
    (file_path : String) : Bool :=
  match lookupHash g file_path with
  | none => true
  | some h => calculate_file_hash digest fs file_path ≠ h

/-- `DependencyGraph.update_hash`: recompute and store the fingerprint. -/
def update_hash (digest : String → String) (fs : FileSys) (g : DependencyGraph)
    (file_path : String) : DependencyGraph :=
  setHash g file_path (calculate_file_hash digest fs file_path)

/-- Forward neighbours of `u`: the targets of the edges leaving `u`. -/
def succs (edges : List (String × String × String)) (u : String) : List String :=
  edges.filterMap (fun e => if e.1 = u then some e.2.1 else none)

/-- Backward neighbours of `u`: the sources of the edges entering `u`. -/
def preds (edges : List (String × String × String)) (u : String) : List String :=
  edges.filterMap (fun e => if e.2.1 = u then some e.1 else none)

/-- Nodes reachable from `u` in at most `d` steps of the neighbour function
`f` (the breadth-first closure networkx's `descendants`/`ancestors` with a
shortest-path-length bound amounts to). `u` itself is always a member. -/
def ball (f : String → List String) (u : String) : Nat → List String
  | 0 => [u]
  | d + 1 => (ball f u d ++ (ball f u d).flatMap f).dedup

/-- `DependencyGraph.get_related_files`: unknown paths give `[]`; otherwise
the ancestors within `depth` (nodes with a directed path to the file of
shortest length at most `depth`, the node itself excluded, as
`networkx.ancestors` excludes the source) together with the descendants
within `depth`. The Python function returns `list(related)` of a set, whose
order is unspecified; the result is meaningful as a set of paths. -/
def get_related_files (g : DependencyGraph) (file_path : String)
    (depth : Nat) : List String :=
  if file_path ∈ g.nodes then
    (((ball (preds g.edges) file_path depth).filter (fun x => x ≠ file_path)) ++
      ((ball (succs g.edges) file_path depth).filter (fun x => x ≠ file_path))).dedup
  else []

/-- A directed path of length `n` (number of edges) in the edge list, edge
types ignored: the specification-side notion of graph distance. -/
inductive Path (es : List (String × String × String)) : String → String → Nat → Prop where
  | refl (u : String) : Path es u u 0
  | step {u v w : String} {k : String} {n : Nat} :
      (u, v, k) ∈ es → Path es v w n → Path es u w (n + 1)

/-- Shortest-path distance at most `d`: some directed path of length at most
`d` exists (equivalently, the minimum over path lengths is at most `d`). -/
def DistLe (es : List (String × String × String)) (u v : String) (d : Nat) : Prop :=
  ∃ n, n ≤ d ∧ Path es u v n

/-- The per-file pipeline steps of `ProjectIndexer._process_file` that go
through external collaborators and may raise: chunk extraction (tree-sitter
parsing, cache file IO), embedding generation (the sentence-transformer
encode call) and the write to the chroma store. An `Except` value is the
outcome of the call. -/
structure PipelineSteps where
  chunk : String → Except String (List Chunk)
  embed : List Chunk → Except String (List Chunk)
  store : List Chunk → Except String Unit

/-- `ProjectIndexer._process_file`: register the file, extract chunks, embed
them, store them, and update the fingerprint last. A raise at any step is
caught by the caller's per-file `try`, so the graph keeps the mutations made
before the failing step; the `Bool` records whether the file completed. -/
def process_file (digest : String → String) (fs : FileSys)
    (steps : PipelineSteps) (g : DependencyGraph) (file_path : String) :
    DependencyGraph × Bool :=
  let g1 := add_file digest fs g file_path
  match steps.chunk file_path with
  | .error _ => (g1, false)
  | .ok chunks =>
    match steps.embed chunks with
    | .error _ => (g1, false)
    | .ok embedded =>
      match steps.store embedded with
      | .error _ => (g1, false)
      | .ok _ => (update_hash digest fs g1 file_path, true)

/-- The chunk cache of `ASTParser`: cache-file path → the chunk list stored
in that file (an entry stands for an existing, loadable cache file; a corrupt
cache file that fails to load behaves as an absent entry). -/
structure ASTCache where
  entries : List (String × List Chunk)
deriving Repr, Inhabited

/-- `ASTParser._get_cache_path`: the cache file is named by a digest of the
path string alone. -/
def get_cache_path (digest : String → String) (file_path : String) : String :=
  ".ast_cache/" ++ digest file_path ++ ".json"

/-- `ASTParser._generate_chunks`: read the file (a read error yields `[]`),
then chunk the content; the per-file-type chunking (tree-sitter, XML
analysis, line blocks) is abstracted as `chunker`. -/
def generate_chunks (fs : FileSys) (chunker : String → String → List Chunk)
    (file_path : String) : List Chunk :=
  match fs file_path with
  | none => []
  | some content => chunker file_path content

/-- `ASTParser.extract_chunks`: when a cache file for the path exists, return
its chunk list without reading the source file; otherwise generate chunks
from the file's current content and store them in the cache. -/
def extract_chunks (digest : String → String) (fs : FileSys)
    (chunker : String → String → List Chunk) (st : ASTCache)
    (file_path : String) : List Chunk × ASTCache :=
  let cacheKey := get_cache_path digest file_path
  match st.entries.find? (fun kv => kv.1 = cacheKey) with
  | some kv => (kv.2, st)
  | none =>
    let chunks := generate_chunks fs chunker file_path
    (chunks, ⟨st.entries ++ [(cacheKey, chunks)]⟩)

/-! ### Concrete instances used to evaluate the model on explicit inputs -/

/-- A concrete stand-in for the md5 hex digest (any function of the content
serves change detection; nothing below depends on its collision behaviour). -/
def dig0 : String → String := fun s => "h" ++ s

/-- A file system with every file missing or unreadable. -/
def fsN : FileSys := fun _ => none

/-- A file system where every path reads the same small body. -/
def fsB : FileSys := fun _ => some "body"

/-- A freshly constructed `DependencyGraph()`. -/
def emptyG : DependencyGraph := ⟨[], [], []⟩

/-- The chain A imports B imports C imports D, built through `add_dependency`. -/
def chainG : DependencyGraph :=
  add_dependency dig0 fsN
    (add_dependency dig0 fsN
      (add_dependency dig0 fsN emptyG "A" "B" "imports") "B" "C" "imports")
    "C" "D" "imports"

/-- A graph with an edge of a second kind attempted on an existing pair. -/
def twoKindG : DependencyGraph :=
  add_dependency dig0 fsN
    (add_dependency dig0 fsN emptyG "A" "B" "imports") "A" "B" "extends"

/-- A graph whose only record is the fingerprint `""` for path p: the state
`add_file` leaves behind when the file was unreadable at registration time. -/
def gRec : DependencyGraph := ⟨["p"], [], [("p", "")]⟩

/-- A chunk with an embedding attached, as the pipeline stores it. -/
def c3chunk : Chunk :=
  { type := "class", content := "class A", file_path := "A.kt",
    embedding := some [1], chunk_id := some "idA" }

/-- A vector database holding two identical documents (two equal-scoring
corpus entries), as left by one `store_chunks` batch. -/
def db7 : VectorDB :=
  store_chunks ⟨[], none, [], []⟩
    [{ type := "t", content := "a", file_path := "f",
       embedding := some [1], chunk_id := some "c1" },
     { type := "t", content := "a", file_path := "f",
       embedding := some [1], chunk_id := some "c2" }]

/-- A scorer giving every document the same score 3 (as BM25 does for
identical documents under any query). -/
def gs7 : List (List String) → List String → List Rat :=
  fun corpus _ => corpus.map (fun _ => (3 : Rat))

/-- Metadata of a chunk appearing in both search paths. -/
def m0 : Metadata := ⟨"A.kt", "class", "cid0", none⟩

/-- A chroma reply holding that one chunk, at distance 0. -/
def vrEx : VectorQueryReply := ⟨[["cid0"]], [["doc"]], [[m0]], [[0]]⟩

/-- A BM25 result list holding the same chunk, found at corpus index 0. -/
def bmEx : List ScoredResult := [⟨"0", "doc", m0, 3⟩]

/-- Pipeline steps whose chunking raises (a parse failure). -/
def failSteps : PipelineSteps :=
  ⟨fun _ => .error "parse", fun c => .ok c, fun _ => .ok ()⟩

/-! ### Theorems -/

theorem find?_map_set (l : List (String × String)) (p v : String)
    (h : l.any (fun kv => kv.1 = p) = true) :
    (l.map (fun kv => if kv.1 = p then (p, v) else kv)).find? (fun kv => kv.1 = p)
      = some (p, v) := by
  induction l with
  | nil => simp at h
  | cons kv tl ih =>
    by_cases hk : kv.1 = p
    · simp [hk]
    · simp only [List.map_cons, if_neg hk]
      rw [List.find?_cons_of_neg _ (by simp [hk])]
      apply ih
      simpa [List.any_cons, hk] using h

theorem find?_append_absent (l : List (String × String)) (p v : String)
    (h : l.any (fun kv => kv.1 = p) = false) :
    (l ++ [(p, v)]).find? (fun kv => kv.1 = p) = some (p, v) := by
  rw [List.find?_append]
  have hn : l.find? (fun kv => kv.1 = p) = none := by
    rw [List.find?_eq_none]
    intro x hx
    rw [List.any_eq_false] at h
    exact h x hx
  simp [hn]

theorem lookupHash_setHash_self (g : DependencyGraph) (p v : String) :
    lookupHash (setHash g p v) p = some v := by
  unfold lookupHash setHash setHashList
  split
  · rw [find?_map_set g.file_hashes p v (by assumption)]
    rfl
  · rename_i h
    rw [find?_append_absent g.file_hashes p v (Bool.eq_false_iff.mpr h)]
    rfl

theorem edges_setHash (g : DependencyGraph) (p v : String) :
    (setHash g p v).edges = g.edges := rfl

theorem nodes_setHash (g : DependencyGraph) (p v : String) :
    (setHash g p v).nodes = g.nodes := rfl

theorem edges_add_file (digest : String → String) (fs : FileSys)
    (g : DependencyGraph) (p : String) :
    (add_file digest fs g p).edges = g.edges := by
  unfold add_file; split
  · rfl
  · rw [edges_setHash]

theorem mem_nodes_add_file (digest : String → String) (fs : FileSys)
    (g : DependencyGraph) (p x : String) (h : x ∈ g.nodes) :
    x ∈ (add_file digest fs g p).nodes := by
  unfold add_file; split
  · exact h
  · rw [nodes_setHash]; exact List.mem_append_left _ h

theorem self_mem_nodes_add_file (digest : String → String) (fs : FileSys)
    (g : DependencyGraph) (p : String) :
    p ∈ (add_file digest fs g p).nodes := by
  unfold add_file; split
  · assumption
  · rw [nodes_setHash]; simp

/-- C10: for every graph state, path and depth, `get_related_files` never
returns the path itself (its occurrence count in the result is zero), even
when a self-loop edge on the path is present: both traversal directions are
filtered against the source node, as `networkx.ancestors`/`descendants`
exclude it. -/
theorem C10_no_self (g : DependencyGraph) (p : String) (d : Nat) :
    List.count p (get_related_files g p d) = 0 := by
  rw [List.count_eq_zero]
  unfold get_related_files
  split
  · simp [List.mem_dedup, List.mem_append, List.mem_filter]
  · simp

/-- C9: once `extract_chunks` has a cache entry for a path, every later call
returns that cached chunk list with the cache unchanged, for any file-system
state whatsoever — the cache key `_get_cache_path` digests the path string
alone, so a change to the file's bytes after first chunking is invisible and
the stale cached chunks are served. -/
theorem C9_cache_stale (digest : String → String)
    (chunker : String → String → List Chunk) (st : ASTCache) (p : String)
    (fs fs2 : FileSys) :
    extract_chunks digest fs2 chunker (extract_chunks digest fs chunker st p).2 p
      = ((extract_chunks digest fs chunker st p).1,
         (extract_chunks digest fs chunker st p).2) := by
  unfold extract_chunks
  cases hfind : st.entries.find? (fun kv => kv.1 = get_cache_path digest p) with
  | some kv => simp [hfind]
  | none =>
    simp only [hfind]
    rw [List.find?_append, hfind]
    simp

/-- C1, counterexample: a chunk present in both the vector result list (id
`cid0`) and the lexical result list (corpus index 0, metadata chunk id
`cid0`) appears TWICE in the fused output, not exactly once — the dedup key
is the result's `id` string, and the lexical entry's id is the corpus index
`"0"`, not the chunk id. -/
theorem C1_counterexample :
    "cid0" ∈ vrEx.ids.getD 0 [] ∧
    bmEx.map (fun r => r.metadata.chunk_id) = ["cid0"] ∧
    (combine_results vrEx bmEx 10).countP (fun r => r.metadata.chunk_id == "cid0") = 2 ∧
    ¬ (combine_results vrEx bmEx 10).countP (fun r => r.metadata.chunk_id == "cid0") = 1 := by
  refine ⟨by decide, by decide, ?_, ?_⟩ <;>
    norm_num [combine_results, fusedDedup, dedupById, vecItems, bmItems,
      List.insertionSort, List.orderedInsert, scoreGe, vrEx, bmEx, m0]

/-- C2, counterexample: a file first encountered in a failing run is NOT left
eligible for retry. Before the run `has_changed` is true (no record); the
chunking step fails, yet `add_file` has already recorded the current
fingerprint, so afterwards `has_changed` is false and the next incremental
pass skips the file. -/
theorem C2_counterexample :
    has_changed dig0 fsB emptyG "f.kt" = true ∧
    (process_file dig0 fsB failSteps emptyG "f.kt").2 = false ∧
    has_changed dig0 fsB (process_file dig0 fsB failSteps emptyG "f.kt").1 "f.kt"
      = false := by
  decide

/-- C3, counterexample: storing the same chunk batch twice (what two full
index runs over an unchanged file do) appends duplicate entries to the
lexical index's parallel arrays instead of overwriting. -/
theorem C3_counterexample :
    (store_chunks (store_chunks ⟨[], none, [], []⟩ [c3chunk]) [c3chunk]).chunk_documents
      = ["class A", "class A"] ∧
    ¬ (store_chunks (store_chunks ⟨[], none, [], []⟩ [c3chunk]) [c3chunk]).chunk_documents.Nodup ∧
    ¬ (store_chunks (store_chunks ⟨[], none, [], []⟩ [c3chunk]) [c3chunk]).chunk_metadatas.Nodup := by
  decide

/-- C4, counterexample: a path whose file is missing at query time with a
recorded fingerprint `""` (recorded when the file was already unreadable)
makes `has_changed` return FALSE, not true: the fresh fingerprint of an
unreadable file is `""` and equals the record. -/
theorem C4_counterexample :
    fsN "p" = none ∧
    lookupHash gRec "p" = some "" ∧
    has_changed dig0 fsN gRec "p" = false := by
  decide

/-- C5, counterexample: when the vector sub-search fails while the lexical
index is available and non-empty, `hybrid_search` does not return the lexical
results — the exception propagates and the whole query fails. -/
theorem C5_counterexample :
    hybrid_search gs7 db7 (Except.error "vector store unavailable") "q" 5
      = Except.error "vector store unavailable" ∧
    bm25_search gs7 db7 "q" 5 ≠ [] := by
  exact ⟨rfl, by decide⟩

/-- C7, counterexample: two equal-scoring documents (identical content, equal
term-frequency scores) are returned with the LATEST-inserted first: the code
reverses an ascending argsort, so corpus index 1 precedes corpus index 0,
while the claim requires earliest-inserted first. -/
theorem C7_counterexample :
    (bm25_search gs7 db7 "q" 2).map (fun r => r.score) = [3, 3] ∧
    (bm25_search gs7 db7 "q" 2).map (fun r => r.id) = ["1", "0"] ∧
    ¬ (bm25_search gs7 db7 "q" 2).map (fun r => r.id) = ["0", "1"] := by
  decide

/-- C8, counterexample: after adding edge (A, B, imports), adding
(A, B, extends) is a no-op — `networkx.DiGraph.has_edge` ignores the kind, so
edges of different kinds between the same pair do NOT coexist. -/
theorem C8_counterexample :
    twoKindG.edges = [("A", "B", "imports")] ∧
    ("A", "B", "extends") ∉ twoKindG.edges := by
  decide

/-- C4, amended: `has_changed` is true exactly when the record differs from
`some` of the freshly computed fingerprint (in particular true when nothing
is recorded); since a missing or unreadable file hashes to `""`, such a file
is reported changed UNLESS the recorded fingerprint is itself `""` (the
record `add_file` leaves for a file unreadable at registration), in which
case `has_changed` is false. -/
theorem C4_has_changed_characterization (digest : String → String)
    (fs : FileSys) (g : DependencyGraph) (p : String) :
    (has_changed digest fs g p = true ↔
      lookupHash g p ≠ some (calculate_file_hash digest fs p)) ∧
    (fs p = none →
      (has_changed digest fs g p = false ↔ lookupHash g p = some "")) := by
  unfold has_changed
  cases hl : lookupHash g p with
  | none => simp
  | some h =>
    constructor
    · simp only [decide_eq_true_eq, ne_eq, Option.some.injEq]
      exact not_congr eq_comm
    · intro hfs
      have hc : calculate_file_hash digest fs p = "" := by
        unfold calculate_file_hash; rw [hfs]
      rw [hc]
      simp only [decide_eq_false_iff_not, ne_eq, not_not, Option.some.injEq]
      exact eq_comm

/-- C5, amended: when the lexical index is unavailable (`bm25_index` still
`None`), `_bm25_search` yields `[]` and `hybrid_search` returns the
vector-derived results alone; but when the vector sub-search raises, the
exception propagates out of `hybrid_search` unchanged — there is no fallback
to lexical-only results, and no distinct retrieval-unavailable error for the
both-fail case. -/
theorem C5_degradation (gs : List (List String) → List String → List Rat)
    (db : VectorDB) (q : String) (n : Nat) (e : String)
    (vr : VectorQueryReply) :
    hybrid_search gs db (Except.error e) q n = Except.error e ∧
    (db.bm25_index = none →
      hybrid_search gs db (Except.ok vr) q n
        = Except.ok (combine_results vr [] n)) := by
  constructor
  · rfl
  · intro h
    simp [hybrid_search, bm25_search, h]

/-- C2, amended: for a file that was already a node of the graph before the
run, a failure in any pipeline step leaves its recorded fingerprint exactly
as it was (the fingerprint update is the last step); but a file first
encountered in the failing run has its fingerprint recorded by `add_file` at
registration, so after the failure `has_changed` is false and the file is
NOT retried by the next incremental pass. -/
theorem C2_fingerprint_on_failure (digest : String → String) (fs : FileSys)
    (steps : PipelineSteps) (g : DependencyGraph) (p : String) :
    (p ∈ g.nodes → (process_file digest fs steps g p).2 = false →
      lookupHash (process_file digest fs steps g p).1 p = lookupHash g p) ∧
    (p ∉ g.nodes → (process_file digest fs steps g p).2 = false →
      has_changed digest fs (process_file digest fs steps g p).1 p = false) := by
  have hg1 : ∀ hmem : p ∈ g.nodes, add_file digest fs g p = g := by
    intro hmem; unfold add_file; rw [if_pos hmem]
  have hg2 : ∀ _hmem : p ∉ g.nodes,
      lookupHash (add_file digest fs g p) p
        = some (calculate_file_hash digest fs p) := by
    intro hmem
    unfold add_file
    rw [if_neg hmem]
    exact lookupHash_setHash_self _ _ _
  constructor
  · intro hmem hfail
    unfold process_file at hfail ⊢
    rw [hg1 hmem] at hfail ⊢
    cases hc : steps.chunk p with
    | error e => simp [hc]
    | ok chunks =>
      cases he : steps.embed chunks with
      | error e => simp [hc, he]
      | ok embedded =>
        cases hs : steps.store embedded with
        | error e => simp [hc, he, hs]
        | ok u => simp [hc, he, hs] at hfail
  · intro hmem hfail
    have hrec := hg2 hmem
    unfold process_file at hfail ⊢
    cases hc : steps.chunk p with
    | error e =>
      simp only [hc]
      unfold has_changed
      rw [hrec]
      simp
    | ok chunks =>
      cases he : steps.embed chunks with
      | error e =>
        simp only [hc, he]
        unfold has_changed
        rw [hrec]
        simp
      | ok embedded =>
        cases hs : steps.store embedded with
        | error e =>
          simp only [hc, he, hs]
          unfold has_changed
          rw [hrec]
          simp
        | ok u => simp [hc, he, hs] at hfail

/-- C8, amended: `add_dependency` does ensure both endpoints are nodes, but
the insertion guard is `DiGraph.has_edge`, which ignores the edge kind: the
edge is appended exactly when NO edge of any kind between the ordered pair
exists, so the graph keeps at most one edge per pair, a later insertion with
a different kind is a no-op, and duplicate same-kind insertions collapse. -/
theorem C8_add_dependency_pair_semantics (digest : String → String)
    (fs : FileSys) (g : DependencyGraph) (s t k : String) :
    s ∈ (add_dependency digest fs g s t k).nodes ∧
    t ∈ (add_dependency digest fs g s t k).nodes ∧
    (has_edge g s t = true → (add_dependency digest fs g s t k).edges = g.edges) ∧
    (has_edge g s t = false →
      (add_dependency digest fs g s t k).edges = g.edges ++ [(s, t, k)]) := by
  have hedges : (ensure_nodes digest fs g s t).edges = g.edges := by
    unfold ensure_nodes; rw [edges_add_file, edges_add_file]
  have hhe : has_edge (ensure_nodes digest fs g s t) s t = has_edge g s t := by
    unfold has_edge; rw [hedges]
  refine ⟨?_, ?_, ?_, ?_⟩
  · unfold add_dependency
    split <;>
      exact mem_nodes_add_file _ _ _ _ _ (self_mem_nodes_add_file _ _ _ _)
  · unfold add_dependency
    split <;> exact self_mem_nodes_add_file _ _ _ _
  · intro h
    unfold add_dependency
    rw [if_pos (by rw [hhe]; exact h)]
    exact hedges
  · intro h
    unfold add_dependency
    rw [if_neg (by rw [hhe, h]; simp)]
    simp [hedges]

theorem mem_dedupById (l : List ScoredResult) (seen : List String)
    (r : ScoredResult) :
    r ∈ dedupById l seen ↔
      r.id ∉ seen ∧ l.find? (fun x => x.id == r.id) = some r := by
  induction l generalizing seen with
  | nil => simp [dedupById]
  | cons x xs ih =>
    unfold dedupById
    by_cases hseen : x.id ∈ seen
    · rw [if_pos hseen, ih]
      by_cases hid : x.id = r.id
      · have hrs : r.id ∈ seen := hid ▸ hseen
        simp [hrs]
      · rw [List.find?_cons_of_neg _ (by simp [hid])]
    · rw [if_neg hseen]
      constructor
      · intro hmem
        rcases List.mem_cons.mp hmem with hx | hmem2
        · subst hx
          exact ⟨hseen, by rw [List.find?_cons_of_pos _ (by simp)]⟩
        · rw [ih] at hmem2
          obtain ⟨hnot, hfind⟩ := hmem2
          have hne : x.id ≠ r.id := fun hh =>
            hnot (by rw [← hh]; exact List.mem_cons_self x.id seen)
          refine ⟨fun hs => hnot (List.mem_cons_of_mem _ hs), ?_⟩
          rw [List.find?_cons_of_neg _ (by simp [hne])]
          exact hfind
      · rintro ⟨hnot, hfind⟩
        by_cases hid : x.id = r.id
        · rw [List.find?_cons_of_pos _ (by simp [hid])] at hfind
          have hxr : x = r := by simpa using hfind
          exact hxr ▸ List.mem_cons_self x _
        · rw [List.find?_cons_of_neg _ (by simp [hid])] at hfind
          apply List.mem_cons_of_mem
          rw [ih]
          refine ⟨?_, hfind⟩
          intro hin
          rcases List.mem_cons.mp hin with heq | hs
          · exact hid heq.symm
          · exact hnot hs

theorem pairwise_dedupById (l : List ScoredResult) (seen : List String) :
    (dedupById l seen).Pairwise (fun a b => a.id ≠ b.id) := by
  induction l generalizing seen with
  | nil => exact List.Pairwise.nil
  | cons x xs ih =>
    unfold dedupById
    split
    · exact ih _
    · refine List.Pairwise.cons ?_ (ih _)
      intro y hy
      have hnot := ((mem_dedupById xs (x.id :: seen) y).mp hy).1
      intro he
      exact hnot (he ▸ List.mem_cons_self x.id seen)

/-- C1, amended: the fused list deduplicates by the result's `id` field,
keeping for each id exactly the first entry in concatenation order (vector
entries precede lexical ones, so among entries SHARING an id string the
vector-derived one wins); but vector entries carry the chunk id as their id
while lexical entries carry the corpus-index string, so a chunk present in
both sub-lists contributes two distinct-id entries and appears twice in the
fused output. -/
theorem C1_dedup_by_id_first_occurrence (vr : VectorQueryReply)
    (bm : List ScoredResult) :
    (fusedDedup vr bm).Pairwise (fun a b => a.id ≠ b.id) ∧
    ∀ r, r ∈ fusedDedup vr bm ↔
      (vecItems vr ++ bmItems bm).find? (fun x => x.id == r.id) = some r := by
  refine ⟨pairwise_dedupById _ _, fun r => ?_⟩
  rw [fusedDedup, mem_dedupById]
  simp

theorem any_id_collectionAdd_mono : ∀ (es coll : List VectorEntry) (i : String),
    coll.any (fun x => x.id = i) = true →
    (collectionAdd coll es).any (fun x => x.id = i) = true := by
  intro es
  induction es with
  | nil => intro coll i h; exact h
  | cons e tl ih =>
    intro coll i h
    unfold collectionAdd
    apply ih
    split
    · exact h
    · simp only [List.any_append, h, Bool.true_or]

theorem mem_collectionAdd_any : ∀ (es coll : List VectorEntry) (e : VectorEntry),
    e ∈ es → (collectionAdd coll es).any (fun x => x.id = e.id) = true := by
  intro es
  induction es with
  | nil => intro coll e h; cases h
  | cons a tl ih =>
    intro coll e h
    rcases List.mem_cons.mp h with rfl | htl
    · unfold collectionAdd
      apply any_id_collectionAdd_mono
      split
      · assumption
      · simp [List.any_append]
    · exact ih _ e htl

theorem collectionAdd_all_present : ∀ (es coll : List VectorEntry),
    (∀ e ∈ es, coll.any (fun x => x.id = e.id) = true) →
    collectionAdd coll es = coll := by
  intro es
  induction es with
  | nil => intro coll _; rfl
  | cons a tl ih =>
    intro coll h
    unfold collectionAdd
    rw [if_pos (h a (List.mem_cons_self a tl))]
    exact ih coll (fun e he => h e (List.mem_cons_of_mem a he))

theorem collectionAdd_idem (coll es : List VectorEntry) :
    collectionAdd (collectionAdd coll es) es = collectionAdd coll es :=
  collectionAdd_all_present es _ (fun e he => mem_collectionAdd_any es coll e he)

theorem generate_embeddings_go_chunk_ids (digest : String → String)
    (embs : List (List Rat)) (cs : List Chunk) : ∀ (i : Nat),
    (generate_embeddings_go digest embs i cs).map (fun c => c.chunk_id)
      = cs.map (fun c => some (digest (c.file_path ++ "-" ++ c.type))) := by
  induction cs with
  | nil => intro i; rfl
  | cons c tl ih => intro i; simp [generate_embeddings_go, ih]

/-- C3, amended: a chunk's identity is indeed derived only from
(file path, type tag), so re-embedding the same chunks yields the same ids,
and the chroma collection keeps a single copy per id (a duplicate-id `add`
is skipped, neither overwritten nor duplicated); but the lexical index's
parallel arrays are EXTENDED on every `store_chunks` call, so storing the
same unchanged batch twice appends duplicate document and metadata entries
rather than overwriting them. -/
theorem C3_reindex_unchanged (digest : String → String)
    (enc : List String → List (List Rat)) (chunks : List Chunk)
    (db : VectorDB) :
    ((generate_embeddings digest enc chunks).map (fun c => c.chunk_id)
      = chunks.map (fun c => some (digest (c.file_path ++ "-" ++ c.type)))) ∧
    (store_chunks (store_chunks db chunks) chunks).collection
      = (store_chunks db chunks).collection ∧
    (store_chunks (store_chunks db chunks) chunks).chunk_documents
      = db.chunk_documents ++ storedDocuments chunks ++ storedDocuments chunks := by
  refine ⟨generate_embeddings_go_chunk_ids digest _ chunks 0, ?_, ?_⟩
  · by_cases hdoc : (storedDocuments chunks).isEmpty
    · simp [store_chunks, hdoc]
    · simp [store_chunks, hdoc, collectionAdd_idem]
  · simp [store_chunks, List.append_assoc]

theorem argsortDesc_pairwise (s : List Rat) (k : Nat) :
    ((argsortAsc s).reverse.take k).Pairwise
      (fun i j => s.getD j 0 < s.getD i 0 ∨ (s.getD i 0 = s.getD j 0 ∧ j ≤ i)) := by
  have htot : IsTotal Nat (argLe s) := by
    constructor
    intro i j
    unfold argLe
    rcases lt_trichotomy (s.getD i 0) (s.getD j 0) with hlt | heq | hgt
    · exact Or.inl (Or.inl hlt)
    · rcases Nat.le_total i j with hij | hji
      · exact Or.inl (Or.inr ⟨heq, hij⟩)
      · exact Or.inr (Or.inr ⟨heq.symm, hji⟩)
    · exact Or.inr (Or.inl hgt)
  have htrans : IsTrans Nat (argLe s) := by
    constructor
    intro a b c hab hbc
    unfold argLe at hab hbc ⊢
    rcases hab with h1 | ⟨h1, h1i⟩ <;> rcases hbc with h2 | ⟨h2, h2i⟩
    · exact Or.inl (h1.trans h2)
    · exact Or.inl (h2 ▸ h1)
    · exact Or.inl (h1 ▸ h2)
    · exact Or.inr ⟨h1.trans h2, h1i.trans h2i⟩
  have hsorted : (argsortAsc s).Pairwise (argLe s) := by
    haveI := htot
    haveI := htrans
    exact List.sorted_insertionSort (argLe s) (List.range s.length)
  have hrev : (argsortAsc s).reverse.Pairwise (fun i j => argLe s j i) :=
    List.pairwise_reverse.mpr hsorted
  have htake : ((argsortAsc s).reverse.take k).Pairwise (fun i j => argLe s j i) :=
    List.Pairwise.sublist (List.take_sublist k _) hrev
  refine htake.imp ?_
  intro i j hji
  unfold argLe at hji
  rcases hji with hlt | ⟨heq, hle⟩
  · exact Or.inl hlt
  · exact Or.inr ⟨heq.symm, hle⟩

/-- C7, amended: `_bm25_search` does tokenize the query by whitespace split
and returns the top-`k` documents by relevance score, highest first, but ties
between equal-scoring documents are broken toward the LATER corpus index
(the reversed ascending stable argsort puts the latest-inserted first), not
the earliest-inserted. -/
theorem C7_bm25_ranking (gs : List (List String) → List String → List Rat)
    (db : VectorDB) (q : String) (k : Nat) (corpus : List (List String))
    (h : db.bm25_index = some corpus) :
    (bm25_search gs db q k =
      (((argsortAsc (gs corpus (pySplit q))).reverse.take k).filter
        (fun idx => idx < db.chunk_metadatas.length)).map
        (mkBM25Result db (gs corpus (pySplit q)))) ∧
    ((argsortAsc (gs corpus (pySplit q))).reverse.take k).Pairwise
      (fun i j =>
        (gs corpus (pySplit q)).getD j 0 < (gs corpus (pySplit q)).getD i 0 ∨
        ((gs corpus (pySplit q)).getD i 0 = (gs corpus (pySplit q)).getD j 0 ∧
          j ≤ i)) := by
  constructor
  · unfold bm25_search
    rw [h]
  · exact argsortDesc_pairwise _ k

/-- Witness for C7 at a concrete input: the two-identical-document corpus. -/
theorem C7_bm25_ranking_witness :
    db7.bm25_index = some [["a"], ["a"]] ∧
    bm25_search gs7 db7 "q" 2 =
      (((argsortAsc (gs7 [["a"], ["a"]] (pySplit "q"))).reverse.take 2).filter
        (fun idx => idx < db7.chunk_metadatas.length)).map
        (mkBM25Result db7 (gs7 [["a"], ["a"]] (pySplit "q"))) :=
  ⟨by decide, (C7_bm25_ranking gs7 db7 "q" 2 [["a"], ["a"]] (by decide)).1⟩

theorem path_zero {es : List (String × String × String)} {u v : String} :
    Path es u v 0 ↔ u = v := by
  constructor
  · intro h
    cases h
    rfl
  · rintro rfl
    exact Path.refl u

theorem Path.snoc {es : List (String × String × String)} {u v w k : String}
    {n : Nat} (h : Path es u v n) (he : (v, w, k) ∈ es) :
    Path es u w (n + 1) := by
  induction h with
  | refl a => exact Path.step he (Path.refl w)
  | step h1 _ ih => exact Path.step h1 (ih he)

theorem path_succ_iff {es : List (String × String × String)} {u w : String}
    {n : Nat} :
    Path es u w (n + 1) ↔ ∃ v k, Path es u v n ∧ (v, w, k) ∈ es := by
  constructor
  · intro h
    induction n generalizing u with
    | zero =>
      cases h with
      | step h1 hp =>
        obtain rfl := path_zero.mp hp
        exact ⟨u, _, Path.refl u, h1⟩
    | succ m ih =>
      cases h with
      | step h1 hp =>
        obtain ⟨y, k2, p2, he2⟩ := ih hp
        exact ⟨y, k2, Path.step h1 p2, he2⟩
  · rintro ⟨v, k, p, he⟩
    exact p.snoc he

theorem mem_succs {es : List (String × String × String)} {u x : String} :
    x ∈ succs es u ↔ ∃ k, (u, x, k) ∈ es := by
  unfold succs
  rw [List.mem_filterMap]
  constructor
  · rintro ⟨⟨a, b, k⟩, hm, hf⟩
    simp only at hf
    split at hf
    · rename_i ha
      obtain rfl := Option.some.inj hf
      exact ⟨k, ha ▸ hm⟩
    · cases hf
  · rintro ⟨k, hm⟩
    exact ⟨(u, x, k), hm, by simp⟩

theorem mem_preds {es : List (String × String × String)} {u x : String} :
    x ∈ preds es u ↔ ∃ k, (x, u, k) ∈ es := by
  unfold preds
  rw [List.mem_filterMap]
  constructor
  · rintro ⟨⟨a, b, k⟩, hm, hf⟩
    simp only at hf
    split at hf
    · rename_i hb
      obtain rfl := Option.some.inj hf
      exact ⟨k, hb ▸ hm⟩
    · cases hf
  · rintro ⟨k, hm⟩
    exact ⟨(x, u, k), hm, by simp⟩

theorem mem_ball_succs (es : List (String × String × String)) (p : String) :
    ∀ (d : Nat) (x : String),
      x ∈ ball (succs es) p d ↔ ∃ n, n ≤ d ∧ Path es p x n := by
  intro d
  induction d with
  | zero =>
    intro x
    simp only [ball, List.mem_singleton]
    constructor
    · rintro rfl
      exact ⟨0, Nat.le_refl 0, Path.refl x⟩
    · rintro ⟨n, hn, hp⟩
      obtain rfl := Nat.le_zero.mp hn
      exact (path_zero.mp hp).symm
  | succ d ih =>
    intro x
    simp only [ball]
    rw [List.mem_dedup, List.mem_append, List.mem_flatMap]
    constructor
    · rintro (hx | ⟨y, hy, hxy⟩)
      · obtain ⟨n, hn, hp⟩ := (ih x).mp hx
        exact ⟨n, Nat.le_succ_of_le hn, hp⟩
      · obtain ⟨n, hn, hp⟩ := (ih y).mp hy
        obtain ⟨k, hk⟩ := mem_succs.mp hxy
        exact ⟨n + 1, Nat.succ_le_succ hn, hp.snoc hk⟩
    · rintro ⟨n, hn, hp⟩
      by_cases hnd : n ≤ d
      · exact Or.inl ((ih x).mpr ⟨n, hnd, hp⟩)
      · have hn1 : n = d + 1 := by omega
        subst hn1
        obtain ⟨v, k, pv, he⟩ := path_succ_iff.mp hp
        exact Or.inr ⟨v, (ih v).mpr ⟨d, Nat.le_refl d, pv⟩, mem_succs.mpr ⟨k, he⟩⟩

theorem mem_ball_preds (es : List (String × String × String)) (p : String) :
    ∀ (d : Nat) (x : String),
      x ∈ ball (preds es) p d ↔ ∃ n, n ≤ d ∧ Path es x p n := by
  intro d
  induction d with
  | zero =>
    intro x
    simp only [ball, List.mem_singleton]
    constructor
    · rintro rfl
      exact ⟨0, Nat.le_refl 0, Path.refl x⟩
    · rintro ⟨n, hn, hp⟩
      obtain rfl := Nat.le_zero.mp hn
      exact path_zero.mp hp
  | succ d ih =>
    intro x
    simp only [ball]
    rw [List.mem_dedup, List.mem_append, List.mem_flatMap]
    constructor
    · rintro (hx | ⟨y, hy, hxy⟩)
      · obtain ⟨n, hn, hp⟩ := (ih x).mp hx
        exact ⟨n, Nat.le_succ_of_le hn, hp⟩
      · obtain ⟨n, hn, hp⟩ := (ih y).mp hy
        obtain ⟨k, hk⟩ := mem_preds.mp hxy
        exact ⟨n + 1, Nat.succ_le_succ hn, Path.step hk hp⟩
    · rintro ⟨n, hn, hp⟩
      by_cases hnd : n ≤ d
      · exact Or.inl ((ih x).mpr ⟨n, hnd, hp⟩)
      · have hn1 : n = d + 1 := by omega
        subst hn1
        cases hp with
        | step h1 hp2 =>
          exact Or.inr ⟨_, (ih _).mpr ⟨d, Nat.le_refl d, hp2⟩,
            mem_preds.mpr ⟨_, h1⟩⟩

/-- C6: `get_related_files g p d` contains exactly the nodes other than `p`
whose shortest-path distance to `p` (following edges backward, as a
dependent) or from `p` (following edges forward, as a dependency) is at most
`d` — a distance at most `d` being the existence of a directed path of at
most `d` edges; the node itself is excluded, as `networkx.ancestors` and
`descendants` exclude the source and as the claim's own example
`relatedFiles(A, 0) = {}` requires. An unknown path gives the empty list,
and on the chain A→B→C→D the depth-1, depth-2 and depth-0 queries return
exactly {B}, {B, C} and {} respectively. -/
theorem C6_related_files_characterization :
    (∀ (g : DependencyGraph) (p : String) (d : Nat) (x : String),
      x ∈ get_related_files g p d ↔
        p ∈ g.nodes ∧ x ≠ p ∧
          (DistLe g.edges x p d ∨ DistLe g.edges p x d)) ∧
    (∀ (g : DependencyGraph) (p : String) (d : Nat),
      p ∉ g.nodes → get_related_files g p d = []) ∧
    (∀ x, x ∈ get_related_files chainG "A" 1 ↔ x = "B") ∧
    (∀ x, x ∈ get_related_files chainG "A" 2 ↔ (x = "B" ∨ x = "C")) ∧
    get_related_files chainG "A" 0 = [] := by
  refine ⟨?_, ?_, ?_, ?_, by decide⟩
  · intro g p d x
    unfold get_related_files
    split
    · rename_i hmem
      rw [List.mem_dedup, List.mem_append, List.mem_filter, List.mem_filter]
      rw [mem_ball_preds g.edges p d x, mem_ball_succs g.edges p d x]
      unfold DistLe
      simp only [decide_eq_true_eq]
      constructor
      · rintro (⟨hd, hne⟩ | ⟨hd, hne⟩)
        · exact ⟨hmem, hne, Or.inl hd⟩
        · exact ⟨hmem, hne, Or.inr hd⟩
      · rintro ⟨_, hne, hd | hd⟩
        · exact Or.inl ⟨hd, hne⟩
        · exact Or.inr ⟨hd, hne⟩
    · rename_i hmem
      simp only [List.not_mem_nil, false_iff]
      rintro ⟨hc, _⟩
      exact hmem hc
  · intro g p d h
    unfold get_related_files
    rw [if_neg h]
  · intro x
    have h1 : get_related_files chainG "A" 1 = ["B"] := by decide
    rw [h1]
    simp
  · intro x
    have h2 : get_related_files chainG "A" 2 = ["B", "C"] := by decide
    rw [h2]
    simp

end AiCoder
